import Mathlib

/-!
Verification of the trivy scan-result pipeline (report aggregation,
severity summarization, dependency provenance, and the remote scan
dispatcher) against a shallow Lean embedding of the Go source.

Go maps (`map[string]V`) are modelled as association lists
`List (String × V)` with a lookup that returns the first binding and an
update that replaces the first binding in place or appends a fresh one.
Iteration order of a Go map is unspecified; the association-list model
fixes one order, and every theorem stated over it is order-independent
(membership, uniqueness of keys, value at a key).
-/

namespace Trivy

/-- First value bound to key `k` in an association list, `none` if absent.
Models a Go map read `m[k]` (together with the `ok` flag). -/
def lookupKey {β : Type} (k : String) : List (String × β) → Option β
  | [] => none
  | (k1, v) :: rest => if k1 = k then some v else lookupKey k rest

/-- Models a Go map write `m[k] = v`: replace the binding of `k` if present,
otherwise add a new binding. -/
def updateIndex {β : Type} : List (String × β) → String → β → List (String × β)
  | [], k, v => [(k, v)]
  | (k1, v1) :: rest, k, v =>
    if k1 = k then (k, v) :: rest else (k1, v1) :: updateIndex rest k v

/-- Keys of an association list. -/
def keysOf {β : Type} (m : List (String × β)) : List String :=
  m.map (fun p => p.1)

/-!
Embedding of `pkg/report/table.go`.

`dbTypes.Severity` is the trivy-db severity enum; `dbTypes.SeverityNames`
lists the severity names in ascending-risk order (the same order the
`SeverityColor` table in `table.go` documents: UNKNOWN, LOW, MEDIUM,
HIGH, CRITICAL).  Only the fields of `types.Result` and its finding
records that the summarization and provenance code reads are modelled;
display-only fields (titles, URLs, versions, ...) are omitted.
-/

/-- The trivy-db severity enum (`dbTypes.Severity`). -/
inductive Severity where
  | UNKNOWN
  | LOW
  | MEDIUM
  | HIGH
  | CRITICAL
deriving DecidableEq, Repr

/-- `dbTypes.Severity.String()`. -/
def Severity.String : Severity → String
  | .UNKNOWN => "UNKNOWN"
  | .LOW => "LOW"
  | .MEDIUM => "MEDIUM"
  | .HIGH => "HIGH"
  | .CRITICAL => "CRITICAL"

/-- `dbTypes.SeverityNames`: severity names in ascending-risk order. -/
def SeverityNames : List String :=
  ["UNKNOWN", "LOW", "MEDIUM", "HIGH", "CRITICAL"]

/-- `types.DetectedVulnerability`: the fields read by severity counting and
the dependency origin tree. -/
structure DetectedVulnerability where
  PkgID : String
  Severity : String
deriving DecidableEq, Repr

/-- `types.MisconfStatus` (`StatusFailure`, `StatusPassed`, `StatusException`). -/
inductive MisconfStatus where
  | StatusFailure
  | StatusPassed
  | StatusException
deriving DecidableEq, Repr

/-- `types.DetectedMisconfiguration`: the fields read by severity counting. -/
structure DetectedMisconfiguration where
  Severity : String
  Status : MisconfStatus
deriving DecidableEq, Repr

/-- `ftypes.SecretFinding`: the field read by severity counting. -/
structure SecretFinding where
  Severity : String
deriving DecidableEq, Repr

/-- `ftypes.Package`: the fields read by `reverseDeps`. -/
structure Package where
  ID : String
  DependsOn : List String
deriving DecidableEq, Repr

/-- `types.Result`: the fields read by the table writer code under
verification (severity counting and the dependency origin tree). -/
structure Result where
  Target : String
  «Type» : String
  Vulnerabilities : List DetectedVulnerability
  Misconfigurations : List DetectedMisconfiguration
  Secrets : List SecretFinding
  Packages : List Package
deriving DecidableEq, Repr

/-- Increment of a severity-count map at one severity name
(Go `severityCount[s]++` on a `map[string]int`, absent keys read as 0). -/
def bumpCount (sc : String → Nat) (s : String) : String → Nat :=
  fun k => if k = s then sc k + 1 else sc k

/-- `TableWriter.countSeverities` (table.go): tally severities of failing
misconfigurations, then all secrets, then all vulnerabilities, into one
`map[string]int` modelled as a total function with default 0. -/
def countSeverities (result : Result) : String → Nat :=
  let sc0 : String → Nat := fun _ => 0
  let sc1 := result.Misconfigurations.foldl
    (fun sc misconf =>
      if misconf.Status = MisconfStatus.StatusFailure then bumpCount sc misconf.Severity
      else sc) sc0
  let sc2 := result.Secrets.foldl (fun sc secret => bumpCount sc secret.Severity) sc1
  result.Vulnerabilities.foldl (fun sc v => bumpCount sc v.Severity) sc2

/-- `TableWriter.summary` (table.go): walk `dbTypes.SeverityNames` in order,
keep only severities in the writer's configured allow-list
(`tw.Severities`, rendered to names), and accumulate the displayed total
and the `"NAME: count"` summary strings. -/
def summary (twSeverities : List Severity) (severityCount : String → Nat) :
    Nat × List String :=
  let severities := twSeverities.map Severity.String
  SeverityNames.foldl
    (fun acc severity =>
      if severities.contains severity then
        let count := severityCount severity
        (acc.1 + count, acc.2 ++ [severity ++ ": " ++ toString count])
      else acc)
    (0, [])

/-- `lo.Uniq`: drop duplicates, keeping first occurrences in order. -/
def uniq (l : List String) : List String :=
  l.foldl (fun acc x => if acc.contains x then acc else acc ++ [x]) []

/-- First-occurrence deduplication relative to an already-seen set; proof
device used to characterize the seen-set folds of `uniq` and of the
dependency-tree rendering. -/
def dedupFrom : List String → List String → List String
  | _, [] => []
  | seen, x :: rest =>
    if seen.contains x then dedupFrom seen rest
    else x :: dedupFrom (seen ++ [x]) rest

/-- `reverseDeps` (table.go): invert the forward `DependsOn` edges of a
target's packages into a parent map, then deduplicate each parent list. -/
def reverseDeps (libs : List Package) : List (String × List String) :=
  let reversed := libs.foldl
    (fun reversed lib =>
      lib.DependsOn.foldl
        (fun reversed dependOn =>
          match lookupKey dependOn reversed with
          | none => updateIndex reversed dependOn [lib.ID]
          | some items => updateIndex reversed dependOn (items ++ [lib.ID]))
        reversed)
    []
  reversed.map (fun p => (p.1, uniq p.2))

/-- A rendered provenance subtree: one `treeprint` branch labelled with a
package identifier, with its sub-branches. -/
inductive PTree where
  | node : String → List PTree → PTree

mutual

/-- `addParents` (table.go): starting from a vulnerable package, add one
branch per parent and recurse into each parent.  The Go function recurses
with no visited-set or depth bound; `fuel` bounds the modelled call depth,
and a result of `none` means the recursion is still descending when the
given depth is exhausted — `none` for every fuel value is non-termination
of the Go original. -/
def addParents (fuel : Nat) (pkgID : String)
    (parentMap : List (String × List String)) : Option (List PTree) :=
  match fuel with
  | 0 => none
  | fuel + 1 =>
    match lookupKey pkgID parentMap with
    | none => some []
    | some parents => addParentsAll fuel parents parentMap
termination_by (fuel, 0)

/-- The `for _, parent := range parents` loop body of `addParents`: build
the branch of each parent in turn. -/
def addParentsAll (fuel : Nat) (parents : List String)
    (parentMap : List (String × List String)) : Option (List PTree) :=
  match parents with
  | [] => some []
  | parent :: rest =>
    match addParents fuel parent parentMap, addParentsAll fuel rest parentMap with
    | some children, some ts => some (PTree.node parent children :: ts)
    | _, _ => none
termination_by (fuel, parents.length + 1)

end

/-- The per-package severity tally of `renderDependencyTree` (table.go):
`map[string]map[string]int` over all vulnerabilities of the result,
modelled as a curried total function with default 0. -/
def pkgSeverityCount (vulns : List DetectedVulnerability) :
    String → String → Nat :=
  vulns.foldl
    (fun cnts vuln => fun pid =>
      if pid = vuln.PkgID then bumpCount (cnts vuln.PkgID) vuln.Severity
      else cnts pid)
    (fun _ _ => 0)

/-- The top-level branch emission of `TableWriter.renderDependencyTree`
(table.go): after building the parent map (early return when it is empty)
and the per-package severity tally, walk the vulnerabilities with a seen
set keyed by package identifier and emit one labelled top-level branch per
unseen package.  This models which branches are added to the root and
their labels `"<pkgID>, (<summaries joined by comma>)"`; the subtree hung
below each branch is `addParents`, modelled separately above. -/
def renderDependencyTree (twSeverities : List Severity) (result : Result) :
    List String :=
  let parents := reverseDeps result.Packages
  if parents.length = 0 then []
  else
    let counts := pkgSeverityCount result.Vulnerabilities
    (result.Vulnerabilities.foldl
      (fun (acc : List String × List String) vuln =>
        if acc.1.contains vuln.PkgID then acc
        else
          let summaries := (summary twSeverities (counts vuln.PkgID)).2
          let topLvlID :=
            vuln.PkgID ++ ", (" ++ String.intercalate ", " summaries ++ ")"
          (acc.1 ++ [vuln.PkgID], acc.2 ++ [topLvlID]))
      ([], [])).2

/-!
Embedding of the kubernetes report aggregator (`pkg/k8s/report.go`,
package `k8s`): `Resource`, `Report`, `Failed`, `consolidate`,
`createResource`.

`Resource.Results` has Go type `types.Results` (a `[]types.Result`); the
threshold check `types.Results.Failed()` that `Report.Failed` delegates to
lives outside this package, so `Failed` is parametrized by that predicate.
The `Resource.Report` field (the original report, excluded from JSON) is
never read by the code under verification and is not modelled.
-/

namespace K8s

/-- `k8s.Resource`: findings of one cluster resource under an identity
`{namespace, kind, name}` plus a per-resource error string. -/
structure Resource where
  Namespace : String
  Kind : String
  Name : String
  Results : List Result
  Error : String
deriving DecidableEq, Repr

/-- Go `strings.ToLower`, modelled as character-wise `Char.toLower` (the
same mapping `String.toLower` performs, in a form the kernel evaluates). -/
def lowercase (s : String) : String :=
  String.mk (s.data.map Char.toLower)

/-- `Resource.fullname()`: the canonical, case-insensitive identity key
`lower(namespace/kind/name)`. -/
def Resource.fullname (r : Resource) : String :=
  lowercase (r.Namespace ++ "/" ++ r.Kind ++ "/" ++ r.Name)

/-- `k8s.Report`: a kubernetes scan report. -/
structure Report where
  SchemaVersion : Int
  ClusterName : String
  Vulnerabilities : List Resource
  Misconfigurations : List Resource
deriving DecidableEq, Repr

/-- `k8s.ConsolidatedReport`. -/
structure ConsolidatedReport where
  SchemaVersion : Int
  ClusterName : String
  Findings : List Resource
deriving DecidableEq, Repr

/-- `k8s.Report.Failed()`: true when some resource's results fail their own
threshold check.  `resultsFailed` stands for the out-of-package method
`types.Results.Failed()` the Go code delegates to. -/
def Report.Failed (resultsFailed : List Result → Bool) (r : Report) : Bool :=
  (r.Vulnerabilities.any fun res => resultsFailed res.Results)
    || (r.Misconfigurations.any fun res => resultsFailed res.Results)

/-- First phase of `k8s.Report.consolidate()`: index every
misconfiguration resource by its canonical key (`index[m.fullname()] = m`). -/
def misconfIndex (ms : List Resource) : List (String × Resource) :=
  ms.foldl (fun index m => updateIndex index m.fullname m) []

/-- Second phase of `k8s.Report.consolidate()`: fold one vulnerability
resource into the index — merge into an existing entry (keeping its
namespace/kind/name and error, appending the incoming results) or insert. -/
def vulnStep (index : List (String × Resource)) (v : Resource) :
    List (String × Resource) :=
  let key := v.fullname
  match lookupKey key index with
  | some r =>
    updateIndex index key
      { Namespace := r.Namespace, Kind := r.Kind, Name := r.Name,
        Results := r.Results ++ v.Results, Error := r.Error }
  | none => updateIndex index key v

/-- `k8s.Report.consolidate()`: index misconfigurations, fold in
vulnerabilities, and take the index's values as the findings.  Go's
`maps.Values` returns them in unspecified order; this model uses insertion
order, and the theorems below state only order-independent facts. -/
def Report.consolidate (r : Report) : ConsolidatedReport :=
  let index := r.Vulnerabilities.foldl vulnStep (misconfIndex r.Misconfigurations)
  { SchemaVersion := r.SchemaVersion, ClusterName := r.ClusterName,
    Findings := index.map (fun p => p.2) }

/-- `artifacts.Artifact`: the identity fields read by `createResource`. -/
structure Artifact where
  Namespace : String
  Kind : String
  Name : String
deriving DecidableEq, Repr

/-- `ftypes.Kubernetes`: the artifact type constant compared against
`result.Type`. -/
def Kubernetes : String := "kubernetes"

/-- `types.Report`: the scan report consumed by `createResource` (only its
`Results` are read). -/
structure TypesReport where
  Results : List Result
deriving DecidableEq, Repr

/-- `k8s.createResource`: build a `Resource` from one scanned artifact,
renaming kubernetes-type targets to `kind/name` and recording a non-nil
scan error's message.  A Go `error` is modelled as `Option String`
(`some msg` for a non-nil error whose `Error()` is `msg`). -/
def createResource (artifact : Artifact) (report : TypesReport)
    (err : Option String) : Resource :=
  let results := report.Results.foldl
    (fun acc result =>
      let result :=
        if result.Type = Kubernetes then
          { result with Target := artifact.Kind ++ "/" ++ artifact.Name }
        else result
      acc ++ [result]) []
  let r : Resource :=
    { Namespace := artifact.Namespace, Kind := artifact.Kind,
      Name := artifact.Name, Results := results, Error := "" }
  match err with
  | some msg => { r with Error := msg }
  | none => r

end K8s

/-!
Embedding of the RPC scan dispatcher (`pkg/scanner/client`, `Scanner.Scan`
in `src/unnamed/part_000`).

The transport (`NewProtobufClient`, TLS configuration, custom headers) and
the RPC↔domain converters (`r.ConvertFromRPCResults`, `r.ConvertFromRPCOS`)
live outside the dispatched-request logic under verification: the remote
call is an explicit `client` argument, the converters are explicit function
arguments, and the response payload element types are type parameters.
A Go `error` is modelled as `String`; the triple `(types.Results, *ftypes.OS,
error)` with nilable components is modelled with `Option`.
-/

namespace Client

/-- `types.ScanOptions`: the fields the dispatcher copies into the request. -/
structure ScanOptions where
  VulnType : List String
  SecurityChecks : List String
  ListAllPackages : Bool
deriving DecidableEq, Repr

/-- `rpc.ScanOptions`: the options payload of the wire request
(`options{vulnType, securityChecks, listAllPackages}`). -/
structure RpcScanOptions where
  VulnType : List String
  SecurityChecks : List String
  ListAllPackages : Bool
deriving DecidableEq, Repr

/-- `rpc.ScanRequest`: the wire request
(`target`, `artifactId`, `blobIds`, `options`). -/
structure ScanRequest where
  Target : String
  ArtifactId : String
  BlobIds : List String
  Options : RpcScanOptions
deriving DecidableEq, Repr

/-- `rpc.ScanResponse`: results plus OS metadata, with the payload element
types abstract. -/
structure ScanResponse (ρ ω : Type) where
  Results : List ρ
  Os : ω

/-- Modelled from the spec: `r.Retry` (package `pkg/rpc`, not under
`src/`) retries a transient network failure a bounded number of times and
returns the last outcome.  Over the deterministic action modelled here,
every bounded retry policy returns the action's outcome, so `Retry` is a
single invocation. -/
def Retry {ε α : Type} (f : Unit → Except ε α) : Except ε α := f ()

/-- `Scanner.Scan` (client.go): build the wire request from the target,
artifact key, blob keys and scan options, issue it through the retried
client call, and either convert the response or wrap the error (Go
`xerrors.Errorf("failed to detect vulnerabilities via RPC: %w", err)`)
and return nil results. -/
def Scan {ρ ω α β : Type} (client : ScanRequest → Except String (ScanResponse ρ ω))
    (convertFromRPCResults : List ρ → α) (convertFromRPCOS : ω → Option β)
    (target artifactKey : String) (blobKeys : List String)
    (options : ScanOptions) : Option α × Option β × Option String :=
  match Retry (fun _ => client
      { Target := target, ArtifactId := artifactKey, BlobIds := blobKeys,
        Options :=
          { VulnType := options.VulnType,
            SecurityChecks := options.SecurityChecks,
            ListAllPackages := options.ListAllPackages } }) with
  | Except.error e =>
    (none, none, some ("failed to detect vulnerabilities via RPC: " ++ e))
  | Except.ok res =>
    (some (convertFromRPCResults res.Results), convertFromRPCOS res.Os, none)

end Client

/-! Concrete inputs used by witnesses and the cyclic-graph analysis. -/

/-- A dependency cycle A→B→C→A expressed as forward `DependsOn` edges. -/
def cyclePackages : List Package :=
  [{ ID := "A", DependsOn := ["B"] },
   { ID := "B", DependsOn := ["C"] },
   { ID := "C", DependsOn := ["A"] }]

namespace K8s

/-- A misconfiguration finding result (content irrelevant, only identity
matters to consolidation). -/
def sampleMisconfResult : Result :=
  { Target := "m", «Type» := "", Vulnerabilities := [], Misconfigurations := [],
    Secrets := [], Packages := [] }

/-- A vulnerability finding result. -/
def sampleVulnResult : Result :=
  { Target := "v", «Type» := "", Vulnerabilities := [], Misconfigurations := [],
    Secrets := [], Packages := [] }

/-- A misconfiguration-origin resource for `default/pod/a`. -/
def sampleMisconfResource : Resource :=
  { Namespace := "default", Kind := "Pod", Name := "a",
    Results := [sampleMisconfResult], Error := "" }

/-- A vulnerability-origin resource with the same identity and its own
error. -/
def sampleVulnResource : Resource :=
  { Namespace := "default", Kind := "Pod", Name := "a",
    Results := [sampleVulnResult], Error := "scan failed" }

/-- A report in which the two sample resources collide. -/
def sampleReport : Report :=
  { SchemaVersion := 0, ClusterName := "c",
    Vulnerabilities := [sampleVulnResource],
    Misconfigurations := [sampleMisconfResource] }

end K8s

/-- A result whose dependency tree has one vulnerable package `p`
(reported twice, at two severities) pulled in by `top`. -/
def sampleTreeResult : Result :=
  { Target := "t", «Type» := "", Secrets := [], Misconfigurations := [],
    Vulnerabilities :=
      [{ PkgID := "p", Severity := "HIGH" }, { PkgID := "p", Severity := "LOW" }],
    Packages := [{ ID := "top", DependsOn := ["p"] }] }

/-!
Theorems.
-/

@[simp] theorem lookupKey_nil {β : Type} (k : String) :
    lookupKey (β := β) k [] = none := rfl

@[simp] theorem lookupKey_cons {β : Type} (k k1 : String) (v : β)
    (rest : List (String × β)) :
    lookupKey k ((k1, v) :: rest) = if k1 = k then some v else lookupKey k rest := rfl

@[simp] theorem keysOf_nil {β : Type} : keysOf (β := β) [] = [] := rfl

@[simp] theorem keysOf_cons {β : Type} (p : String × β) (rest : List (String × β)) :
    keysOf (p :: rest) = p.1 :: keysOf rest := rfl

theorem lookupKey_updateIndex {β : Type} (m : List (String × β)) (k k2 : String) (v : β) :
    lookupKey k2 (updateIndex m k v) = if k = k2 then some v else lookupKey k2 m := by
  induction m with
  | nil => simp [updateIndex, lookupKey]
  | cons p rest ih =>
    obtain ⟨k1, v1⟩ := p
    by_cases h1 : k1 = k
    · subst h1
      simp only [updateIndex, if_pos rfl]
      by_cases h2 : k1 = k2
      · subst h2; simp [lookupKey]
      · simp [lookupKey, h2]
    · simp only [updateIndex, if_neg h1]
      by_cases h2 : k1 = k2
      · subst h2
        have hk : ¬ k = k1 := fun h => h1 h.symm
        simp [lookupKey, hk]
      · simp [lookupKey, h2, ih]

theorem mem_keysOf_updateIndex {β : Type} (m : List (String × β)) (k k2 : String) (v : β) :
    k2 ∈ keysOf (updateIndex m k v) ↔ k2 ∈ keysOf m ∨ k2 = k := by
  induction m with
  | nil => simp [updateIndex, keysOf, eq_comm]
  | cons p rest ih =>
    obtain ⟨k1, v1⟩ := p
    by_cases h1 : k1 = k
    · subst h1
      simp only [updateIndex, if_pos rfl, keysOf_cons]
      constructor
      · rintro h
        rcases List.mem_cons.mp h with h | h
        · exact Or.inr h
        · exact Or.inl (List.mem_cons.mpr (Or.inr h))
      · rintro (h | h)
        · rcases List.mem_cons.mp h with h | h
          · exact List.mem_cons.mpr (Or.inl h)
          · exact List.mem_cons.mpr (Or.inr h)
        · exact List.mem_cons.mpr (Or.inl h)
    · simp only [updateIndex, if_neg h1, keysOf_cons, List.mem_cons, ih]
      tauto

theorem nodup_keysOf_updateIndex {β : Type} (m : List (String × β)) (k : String) (v : β)
    (h : (keysOf m).Nodup) : (keysOf (updateIndex m k v)).Nodup := by
  induction m with
  | nil => simp [updateIndex, keysOf]
  | cons p rest ih =>
    obtain ⟨k1, v1⟩ := p
    simp only [keysOf_cons, List.nodup_cons] at h
    by_cases h1 : k1 = k
    · subst h1
      simpa [updateIndex, keysOf] using h
    · simp only [updateIndex, if_neg h1, keysOf_cons, List.nodup_cons]
      refine ⟨fun hmem => ?_, ih h.2⟩
      rcases (mem_keysOf_updateIndex rest k k1 v).mp hmem with hm | hm
      · exact h.1 hm
      · exact h1 hm

theorem lookupKey_eq_some_mem {β : Type} {m : List (String × β)} {k : String} {v : β}
    (h : lookupKey k m = some v) : (k, v) ∈ m := by
  induction m with
  | nil => simp [lookupKey] at h
  | cons p rest ih =>
    obtain ⟨k1, v1⟩ := p
    by_cases h1 : k1 = k
    · subst h1
      rw [lookupKey_cons, if_pos rfl] at h
      injection h with h
      subst h
      exact List.mem_cons.mpr (Or.inl rfl)
    · simp only [lookupKey_cons, if_neg h1] at h
      exact List.mem_cons.mpr (Or.inr (ih h))

theorem lookupKey_eq_none_of_not_mem_keysOf {β : Type} {m : List (String × β)} {k : String}
    (h : k ∉ keysOf m) : lookupKey k m = none := by
  induction m with
  | nil => rfl
  | cons p rest ih =>
    obtain ⟨k1, v1⟩ := p
    simp only [keysOf_cons, List.mem_cons, not_or] at h
    have h1 : k1 ≠ k := fun hk => h.1 hk.symm
    simp [lookupKey, h1, ih h.2]

theorem summary_foldl_aux (severities : List String) (severityCount : String → Nat)
    (names : List String) (acc : Nat × List String) :
    names.foldl
      (fun acc severity =>
        if severities.contains severity then
          (acc.1 + severityCount severity,
           acc.2 ++ [severity ++ ": " ++ toString (severityCount severity)])
        else acc) acc =
      (acc.1 + ((names.filter (fun s => severities.contains s)).map severityCount).sum,
       acc.2 ++ (names.filter (fun s => severities.contains s)).map
         (fun s => s ++ ": " ++ toString (severityCount s))) := by
  induction names generalizing acc with
  | nil => simp
  | cons n rest ih =>
    by_cases h : severities.contains n
    · simp only [List.foldl_cons, List.filter_cons, h, if_pos, ih, List.map_cons,
        List.sum_cons, Prod.mk.injEq]
      exact ⟨by ring, by simp⟩
    · simp only [List.foldl_cons, List.filter_cons, h, ih]
      simp

theorem foldl_bumpCount_sev {α : Type} (f : α → String) (l : List α)
    (sc : String → Nat) (sev : String) :
    (l.foldl (fun sc x => bumpCount sc (f x)) sc) sev
      = sc sev + l.countP (fun x => f x == sev) := by
  induction l generalizing sc with
  | nil => simp
  | cons x rest ih =>
    simp only [List.foldl_cons, ih, List.countP_cons, bumpCount]
    by_cases h : f x = sev
    · simp [h]
      omega
    · have h2 : ¬ sev = f x := fun hx => h hx.symm
      simp [h, h2]

theorem foldl_bumpCount_misconf (l : List DetectedMisconfiguration)
    (sc : String → Nat) (sev : String) :
    (l.foldl
      (fun sc misconf =>
        if misconf.Status = MisconfStatus.StatusFailure then bumpCount sc misconf.Severity
        else sc) sc) sev
      = sc sev + l.countP
          (fun m => m.Status == MisconfStatus.StatusFailure && m.Severity == sev) := by
  induction l generalizing sc with
  | nil => simp
  | cons m rest ih =>
    simp only [List.foldl_cons, List.countP_cons]
    by_cases hs : m.Status = MisconfStatus.StatusFailure
    · simp only [hs, if_pos rfl, ih]
      by_cases h : m.Severity = sev
      · simp [hs, h, bumpCount]
        omega
      · have h2 : ¬ sev = m.Severity := fun hx => h hx.symm
        simp [hs, h, h2, bumpCount]
    · have hs2 : (m.Status == MisconfStatus.StatusFailure) = false := by
        simp [hs]
      simp [hs, hs2, ih]

/-- C5: for every severity-count map and caller-supplied allow-list,
`summary` walks the fixed ascending-risk list `SeverityNames` (so display
order is independent of encounter order), emits exactly the allow-listed
severities as `"NAME: count"` entries, and returns as total the sum of the
counts of allow-listed severities only.  (The count map is an input the
pure function never modifies, so non-allow-listed severities stay in it.) -/
theorem summary_allowlist_total_and_order (twSeverities : List Severity)
    (severityCount : String → Nat) :
    (summary twSeverities severityCount).1
        = ((SeverityNames.filter
            (fun s => (twSeverities.map Severity.String).contains s)).map
              severityCount).sum
      ∧ (summary twSeverities severityCount).2
        = (SeverityNames.filter
            (fun s => (twSeverities.map Severity.String).contains s)).map
              (fun s => s ++ ": " ++ toString (severityCount s)) := by
  have h := summary_foldl_aux (twSeverities.map Severity.String) severityCount
    SeverityNames (0, [])
  simp only [summary]
  rw [h]
  simp

/-- C6: for every `Result`, the severity-count map built by
`countSeverities` tallies exactly three sources: every vulnerability
unconditionally, only misconfigurations whose status is failure, and every
secret finding. -/
theorem countSeverities_three_sources (result : Result) (sev : String) :
    countSeverities result sev
      = result.Vulnerabilities.countP (fun v => v.Severity == sev)
        + result.Misconfigurations.countP
            (fun m => m.Status == MisconfStatus.StatusFailure && m.Severity == sev)
        + result.Secrets.countP (fun s => s.Severity == sev) := by
  simp only [countSeverities]
  rw [foldl_bumpCount_sev (fun v : DetectedVulnerability => v.Severity),
    foldl_bumpCount_sev (fun s : SecretFinding => s.Severity),
    foldl_bumpCount_misconf]
  omega

namespace K8s

theorem foldl_append_singleton {α β : Type} (f : α → β) (l : List α) (acc : List β) :
    l.foldl (fun acc x => acc ++ [f x]) acc = acc ++ l.map f := by
  induction l generalizing acc with
  | nil => simp
  | cons x rest ih => simp [ih]

theorem consistent_updateIndex (idx : List (String × Resource)) (k : String)
    (v : Resource) (hc : ∀ p ∈ idx, Resource.fullname p.2 = p.1)
    (hv : v.fullname = k) :
    ∀ p ∈ updateIndex idx k v, Resource.fullname p.2 = p.1 := by
  induction idx with
  | nil =>
    intro p hp
    have h := List.mem_singleton.mp hp
    subst h
    exact hv
  | cons q rest ih =>
    obtain ⟨k1, v1⟩ := q
    intro p hp
    by_cases h1 : k1 = k
    · rw [show updateIndex ((k1, v1) :: rest) k v = (k, v) :: rest from by
        simp [updateIndex, h1]] at hp
      rcases List.mem_cons.mp hp with h | h
      · subst h; exact hv
      · exact hc p (List.mem_cons.mpr (Or.inr h))
    · rw [show updateIndex ((k1, v1) :: rest) k v = (k1, v1) :: updateIndex rest k v from by
        simp [updateIndex, h1]] at hp
      rcases List.mem_cons.mp hp with h | h
      · subst h; exact hc (k1, v1) (List.mem_cons.mpr (Or.inl rfl))
      · exact ih (fun q hq => hc q (List.mem_cons.mpr (Or.inr hq))) p h

theorem consistent_misconfFold (ms : List Resource) (idx : List (String × Resource))
    (hc : ∀ p ∈ idx, Resource.fullname p.2 = p.1) :
    ∀ p ∈ ms.foldl (fun index m => updateIndex index m.fullname m) idx,
      Resource.fullname p.2 = p.1 := by
  induction ms generalizing idx with
  | nil => exact hc
  | cons m rest ih =>
    exact ih (updateIndex idx m.fullname m) (consistent_updateIndex idx _ m hc rfl)

theorem consistent_vulnStep (idx : List (String × Resource)) (v : Resource)
    (hc : ∀ p ∈ idx, Resource.fullname p.2 = p.1) :
    ∀ p ∈ vulnStep idx v, Resource.fullname p.2 = p.1 := by
  cases hl : lookupKey v.fullname idx with
  | none =>
    intro p hp
    simp only [vulnStep, hl] at hp
    exact consistent_updateIndex idx _ v hc rfl p hp
  | some r =>
    intro p hp
    simp only [vulnStep, hl] at hp
    have hr : Resource.fullname r = v.fullname := hc _ (lookupKey_eq_some_mem hl)
    refine consistent_updateIndex idx _ _ hc ?_ p hp
    simpa [Resource.fullname] using hr

theorem consistent_vulnFold (vs : List Resource) (idx : List (String × Resource))
    (hc : ∀ p ∈ idx, Resource.fullname p.2 = p.1) :
    ∀ p ∈ vs.foldl vulnStep idx, Resource.fullname p.2 = p.1 := by
  induction vs generalizing idx with
  | nil => exact hc
  | cons v rest ih => exact ih (vulnStep idx v) (consistent_vulnStep idx v hc)

theorem mem_keysOf_misconfFold (ms : List Resource) (idx : List (String × Resource))
    (k : String) :
    k ∈ keysOf (ms.foldl (fun index m => updateIndex index m.fullname m) idx)
      ↔ k ∈ keysOf idx ∨ k ∈ ms.map Resource.fullname := by
  induction ms generalizing idx with
  | nil => simp
  | cons m rest ih =>
    simp only [List.foldl_cons, ih, mem_keysOf_updateIndex, List.map_cons,
      List.mem_cons]
    tauto

theorem mem_keysOf_vulnStep (idx : List (String × Resource)) (v : Resource)
    (k : String) :
    k ∈ keysOf (vulnStep idx v) ↔ k ∈ keysOf idx ∨ k = v.fullname := by
  cases hl : lookupKey v.fullname idx <;>
    simp [vulnStep, hl, mem_keysOf_updateIndex]

theorem mem_keysOf_vulnFold (vs : List Resource) (idx : List (String × Resource))
    (k : String) :
    k ∈ keysOf (vs.foldl vulnStep idx)
      ↔ k ∈ keysOf idx ∨ k ∈ vs.map Resource.fullname := by
  induction vs generalizing idx with
  | nil => simp
  | cons v rest ih =>
    simp only [List.foldl_cons, ih, mem_keysOf_vulnStep, List.map_cons,
      List.mem_cons]
    tauto

theorem nodup_keysOf_misconfFold (ms : List Resource) (idx : List (String × Resource))
    (h : (keysOf idx).Nodup) :
    (keysOf (ms.foldl (fun index m => updateIndex index m.fullname m) idx)).Nodup := by
  induction ms generalizing idx with
  | nil => exact h
  | cons m rest ih =>
    exact ih (updateIndex idx m.fullname m) (nodup_keysOf_updateIndex idx _ m h)

theorem nodup_keysOf_vulnStep (idx : List (String × Resource)) (v : Resource)
    (h : (keysOf idx).Nodup) : (keysOf (vulnStep idx v)).Nodup := by
  cases hl : lookupKey v.fullname idx with
  | none =>
    simp only [vulnStep, hl]
    exact nodup_keysOf_updateIndex idx _ _ h
  | some r =>
    simp only [vulnStep, hl]
    exact nodup_keysOf_updateIndex idx _ _ h

theorem nodup_keysOf_vulnFold (vs : List Resource) (idx : List (String × Resource))
    (h : (keysOf idx).Nodup) : (keysOf (vs.foldl vulnStep idx)).Nodup := by
  induction vs generalizing idx with
  | nil => exact h
  | cons v rest ih => exact ih (vulnStep idx v) (nodup_keysOf_vulnStep idx v h)

theorem values_filter_eq_nil (idx : List (String × Resource)) (k : String)
    (hk : k ∉ keysOf idx) (hc : ∀ p ∈ idx, Resource.fullname p.2 = p.1) :
    (idx.map (fun p => p.2)).filter (fun res => res.fullname == k) = [] := by
  induction idx with
  | nil => rfl
  | cons q rest ih =>
    obtain ⟨k1, v1⟩ := q
    simp only [keysOf_cons, List.mem_cons, not_or] at hk
    have h1 : Resource.fullname v1 = k1 := hc (k1, v1) (List.mem_cons.mpr (Or.inl rfl))
    have hne : ¬ (Resource.fullname v1 = k) := by
      rw [h1]
      exact fun h => hk.1 h.symm
    simp only [List.map_cons, List.filter_cons]
    rw [if_neg (by simpa using hne)]
    exact ih hk.2 (fun q hq => hc q (List.mem_cons.mpr (Or.inr hq)))

theorem values_filter_eq_lookup (idx : List (String × Resource)) (k : String)
    (hnd : (keysOf idx).Nodup) (hc : ∀ p ∈ idx, Resource.fullname p.2 = p.1) :
    (idx.map (fun p => p.2)).filter (fun res => res.fullname == k)
      = (lookupKey k idx).toList := by
  induction idx with
  | nil => rfl
  | cons q rest ih =>
    obtain ⟨k1, v1⟩ := q
    simp only [keysOf_cons, List.nodup_cons] at hnd
    have h1 : Resource.fullname v1 = k1 := hc (k1, v1) (List.mem_cons.mpr (Or.inl rfl))
    have hcr : ∀ p ∈ rest, Resource.fullname p.2 = p.1 :=
      fun q hq => hc q (List.mem_cons.mpr (Or.inr hq))
    by_cases h : k1 = k
    · subst h
      simp only [List.map_cons, List.filter_cons]
      rw [if_pos (by simpa using h1), lookupKey_cons, if_pos rfl]
      rw [values_filter_eq_nil rest k1 hnd.1 hcr]
      rfl
    · simp only [List.map_cons, List.filter_cons]
      have hne : ¬ (Resource.fullname v1 = k) := by rw [h1]; exact h
      rw [if_neg (by simpa using hne), lookupKey_cons, if_neg h]
      exact ih hnd.2 hcr

theorem values_map_fullname (idx : List (String × Resource))
    (hc : ∀ p ∈ idx, Resource.fullname p.2 = p.1) :
    (idx.map (fun p => p.2)).map Resource.fullname = keysOf idx := by
  induction idx with
  | nil => rfl
  | cons q rest ih =>
    simp only [List.map_cons, keysOf_cons]
    rw [hc q (List.mem_cons.mpr (Or.inl rfl)),
      ih (fun p hp => hc p (List.mem_cons.mpr (Or.inr hp)))]

theorem vulnFold_lookup (vs : List Resource) (idx : List (String × Resource))
    (k : String) (m : Resource) (hm : lookupKey k idx = some m) :
    lookupKey k (vs.foldl vulnStep idx)
      = some { Namespace := m.Namespace, Kind := m.Kind, Name := m.Name,
               Results := m.Results
                 ++ ((vs.filter (fun v => v.fullname == k)).map
                      (fun v => v.Results)).flatten,
               Error := m.Error } := by
  induction vs generalizing idx m with
  | nil => simpa using hm
  | cons v rest ih =>
    by_cases hv : v.fullname = k
    · have hstep : vulnStep idx v
          = updateIndex idx k
              { Namespace := m.Namespace, Kind := m.Kind, Name := m.Name,
                Results := m.Results ++ v.Results, Error := m.Error } := by
        simp only [vulnStep, hv, hm]
      have hlk : lookupKey k (vulnStep idx v)
          = some { Namespace := m.Namespace, Kind := m.Kind, Name := m.Name,
                   Results := m.Results ++ v.Results, Error := m.Error } := by
        rw [hstep, lookupKey_updateIndex, if_pos rfl]
      have hrest := ih (vulnStep idx v) _ hlk
      rw [List.foldl_cons, hrest]
      simp [hv, List.append_assoc]
    · have hstep : lookupKey k (vulnStep idx v) = some m := by
        cases hl : lookupKey v.fullname idx with
        | none =>
          simp only [vulnStep, hl]
          rw [lookupKey_updateIndex, if_neg hv]
          exact hm
        | some r =>
          simp only [vulnStep, hl]
          rw [lookupKey_updateIndex, if_neg hv]
          exact hm
      have hrest := ih (vulnStep idx v) m hstep
      rw [List.foldl_cons, hrest]
      simp [hv]

/-- C2: when a vulnerability-origin resource's canonical identity key is
already indexed by a misconfiguration-origin resource, `consolidate`
produces for that key a single entry keeping the existing entry's
namespace, kind, name and error, with `Results` being the existing entry's
results first and the results of each colliding incoming resource appended
in order; the incoming entries' own errors are discarded. -/
theorem consolidate_merges_colliding_resources (r : Report) (k : String)
    (m : Resource)
    (hm : lookupKey k (misconfIndex r.Misconfigurations) = some m) :
    (r.consolidate).Findings.filter (fun res => res.fullname == k)
      = [{ Namespace := m.Namespace, Kind := m.Kind, Name := m.Name,
           Results := m.Results
             ++ ((r.Vulnerabilities.filter (fun v => v.fullname == k)).map
                  (fun v => v.Results)).flatten,
           Error := m.Error }] := by
  have hc0 : ∀ p ∈ misconfIndex r.Misconfigurations, Resource.fullname p.2 = p.1 :=
    consistent_misconfFold r.Misconfigurations []
      (by intro p hp; exact absurd hp (List.not_mem_nil p))
  have hnd0 : (keysOf (misconfIndex r.Misconfigurations)).Nodup :=
    nodup_keysOf_misconfFold r.Misconfigurations [] (by simp)
  have hc : ∀ p ∈ r.Vulnerabilities.foldl vulnStep (misconfIndex r.Misconfigurations),
      Resource.fullname p.2 = p.1 :=
    consistent_vulnFold _ _ hc0
  have hnd : (keysOf (r.Vulnerabilities.foldl vulnStep
      (misconfIndex r.Misconfigurations))).Nodup :=
    nodup_keysOf_vulnFold _ _ hnd0
  have hlk := vulnFold_lookup r.Vulnerabilities _ k m hm
  show ((r.Vulnerabilities.foldl vulnStep
      (misconfIndex r.Misconfigurations)).map (fun p => p.2)).filter
        (fun res => res.fullname == k) = _
  rw [values_filter_eq_lookup _ k hnd hc, hlk]
  rfl

/-- C2 witness: the sample misconfiguration and vulnerability resources
share identity `default/pod/a`, and consolidation of the sample report
yields the single merged entry the theorem describes. -/
theorem consolidate_merges_colliding_resources_witness :
    lookupKey "default/pod/a" (misconfIndex sampleReport.Misconfigurations)
        = some sampleMisconfResource
      ∧ (sampleReport.consolidate).Findings.filter
          (fun res => res.fullname == "default/pod/a")
        = [{ Namespace := sampleMisconfResource.Namespace,
             Kind := sampleMisconfResource.Kind,
             Name := sampleMisconfResource.Name,
             Results := sampleMisconfResource.Results
               ++ ((sampleReport.Vulnerabilities.filter
                     (fun v => v.fullname == "default/pod/a")).map
                    (fun v => v.Results)).flatten,
             Error := sampleMisconfResource.Error }] :=
  ⟨by decide,
   consolidate_merges_colliding_resources sampleReport "default/pod/a"
     sampleMisconfResource (by decide)⟩

/-- C3: the findings of `consolidate` contain exactly one entry per
distinct canonical identity key occurring among the input
misconfiguration and vulnerability resources — the findings' keys are
duplicate-free, resources whose identities agree up to letter case merge
into one entry, distinct keys never merge, and no input identity is
dropped. -/
theorem consolidate_one_entry_per_identity (r : Report) :
    ((r.consolidate).Findings.map Resource.fullname).Nodup
      ∧ ∀ k, k ∈ (r.consolidate).Findings.map Resource.fullname
          ↔ k ∈ (r.Misconfigurations ++ r.Vulnerabilities).map Resource.fullname := by
  have hc0 : ∀ p ∈ misconfIndex r.Misconfigurations, Resource.fullname p.2 = p.1 :=
    consistent_misconfFold r.Misconfigurations []
      (by intro p hp; exact absurd hp (List.not_mem_nil p))
  have hnd0 : (keysOf (misconfIndex r.Misconfigurations)).Nodup :=
    nodup_keysOf_misconfFold r.Misconfigurations [] (by simp)
  have hc : ∀ p ∈ r.Vulnerabilities.foldl vulnStep (misconfIndex r.Misconfigurations),
      Resource.fullname p.2 = p.1 :=
    consistent_vulnFold _ _ hc0
  have hnd : (keysOf (r.Vulnerabilities.foldl vulnStep
      (misconfIndex r.Misconfigurations))).Nodup :=
    nodup_keysOf_vulnFold _ _ hnd0
  have hkeys : (r.consolidate).Findings.map Resource.fullname
      = keysOf (r.Vulnerabilities.foldl vulnStep
          (misconfIndex r.Misconfigurations)) :=
    values_map_fullname _ hc
  constructor
  · rw [hkeys]; exact hnd
  · intro k
    rw [hkeys, mem_keysOf_vulnFold]
    have hmis := mem_keysOf_misconfFold r.Misconfigurations [] k
    rw [show misconfIndex r.Misconfigurations
        = r.Misconfigurations.foldl (fun index m => updateIndex index m.fullname m) []
      from rfl, hmis]
    simp only [keysOf_nil, List.not_mem_nil, false_or, List.map_append,
      List.mem_append]

/-- C4: `Report.Failed` is true exactly when some resource in the
vulnerability list or in the misconfiguration list has a `Results`
collection whose own threshold check holds; a failing resource anywhere in
either list suffices, and an all-passing report yields false. -/
theorem Failed_iff_some_resource_fails (resultsFailed : List Result → Bool)
    (r : Report) :
    Report.Failed resultsFailed r = true
      ↔ (∃ res ∈ r.Vulnerabilities, resultsFailed res.Results = true)
        ∨ (∃ res ∈ r.Misconfigurations, resultsFailed res.Results = true) := by
  simp [Report.Failed, List.any_eq_true]

/-- C9: `consolidate` copies `SchemaVersion` and `ClusterName` from the
input report unchanged; only `Findings` is computed. -/
theorem consolidate_preserves_schema_and_cluster (r : Report) :
    (r.consolidate).SchemaVersion = r.SchemaVersion
      ∧ (r.consolidate).ClusterName = r.ClusterName :=
  ⟨rfl, rfl⟩

/-- C10: `createResource` records the error's message exactly when the
error is non-nil (empty string otherwise), and always keeps one output
`Result` per input `Result`, renaming kubernetes-type targets to
`kind/name` — a per-resource scan error never discards collected findings. -/
theorem createResource_error_and_results (artifact : Artifact)
    (report : TypesReport) (err : Option String) :
    (createResource artifact report err).Error = err.getD ""
      ∧ (createResource artifact report err).Results
        = report.Results.map
            (fun result =>
              if result.«Type» = Kubernetes then
                { result with Target := artifact.Kind ++ "/" ++ artifact.Name }
              else result)
      ∧ (createResource artifact report err).Results.length
        = report.Results.length := by
  cases err <;> simp [createResource, foldl_append_singleton]

end K8s

namespace Client

/-- C8: every call `Scan(target, artifactKey, blobKeys, options)` is
determined by the client's answer to the one request carrying `target` in
field `Target`, `artifactKey` in field `ArtifactId`, `blobKeys` in order
in field `BlobIds`, and the scan options mapped to
`Options{VulnType, SecurityChecks, ListAllPackages}`; when the retried
call fails, both result components are nil and the error is the underlying
error wrapped with added context. -/
theorem Scan_request_fields_and_failure {ρ ω α β : Type}
    (client : ScanRequest → Except String (ScanResponse ρ ω))
    (convertFromRPCResults : List ρ → α) (convertFromRPCOS : ω → Option β)
    (target artifactKey : String) (blobKeys : List String)
    (options : ScanOptions) :
    Scan client convertFromRPCResults convertFromRPCOS
        target artifactKey blobKeys options
      = match client
          { Target := target, ArtifactId := artifactKey, BlobIds := blobKeys,
            Options :=
              { VulnType := options.VulnType,
                SecurityChecks := options.SecurityChecks,
                ListAllPackages := options.ListAllPackages } } with
        | Except.error e =>
          (none, none, some ("failed to detect vulnerabilities via RPC: " ++ e))
        | Except.ok res =>
          (some (convertFromRPCResults res.Results), convertFromRPCOS res.Os, none) :=
  rfl

end Client

theorem uniq_foldl_eq (l acc : List String) :
    l.foldl (fun acc x => if acc.contains x then acc else acc ++ [x]) acc
      = acc ++ dedupFrom acc l := by
  induction l generalizing acc with
  | nil => simp [dedupFrom]
  | cons x rest ih =>
    simp only [List.foldl_cons]
    by_cases h : x ∈ acc
    · have hb : acc.contains x = true := by simpa using h
      rw [hb, if_pos rfl, ih]
      simp [dedupFrom, h]
    · have hb : acc.contains x = false := by simpa using h
      rw [hb, if_neg (by simp), ih]
      simp [dedupFrom, h, List.append_assoc]

theorem uniq_eq_dedupFrom (l : List String) : uniq l = dedupFrom [] l := by
  simpa [uniq] using uniq_foldl_eq l []

theorem not_mem_of_mem_dedupFrom {y : String} {seen l : List String}
    (h : y ∈ dedupFrom seen l) : y ∉ seen := by
  induction l generalizing seen with
  | nil => simp [dedupFrom] at h
  | cons x rest ih =>
    by_cases hc : x ∈ seen
    · rw [show dedupFrom seen (x :: rest) = dedupFrom seen rest from by
        simp [dedupFrom, hc]] at h
      exact ih h
    · rw [show dedupFrom seen (x :: rest) = x :: dedupFrom (seen ++ [x]) rest from by
        simp [dedupFrom, hc]] at h
      rcases List.mem_cons.mp h with h | h
      · subst h
        exact hc
      · intro hy
        exact ih h (List.mem_append.mpr (Or.inl hy))

theorem nodup_dedupFrom (seen l : List String) : (dedupFrom seen l).Nodup := by
  induction l generalizing seen with
  | nil => simp [dedupFrom]
  | cons x rest ih =>
    by_cases hc : x ∈ seen
    · rw [show dedupFrom seen (x :: rest) = dedupFrom seen rest from by
        simp [dedupFrom, hc]]
      exact ih seen
    · rw [show dedupFrom seen (x :: rest) = x :: dedupFrom (seen ++ [x]) rest from by
        simp [dedupFrom, hc]]
      refine List.nodup_cons.mpr ⟨fun hx => ?_, ih (seen ++ [x])⟩
      exact not_mem_of_mem_dedupFrom hx (List.mem_append.mpr (Or.inr (by simp)))

theorem pkgSeverityCount_foldl (vulns : List DetectedVulnerability)
    (acc : String → String → Nat) (p s : String) :
    (vulns.foldl
      (fun cnts vuln => fun pid =>
        if pid = vuln.PkgID then bumpCount (cnts vuln.PkgID) vuln.Severity
        else cnts pid) acc) p s
      = acc p s + vulns.countP (fun v => v.PkgID == p && v.Severity == s) := by
  induction vulns generalizing acc with
  | nil => simp
  | cons v rest ih =>
    simp only [List.foldl_cons, ih, List.countP_cons]
    by_cases hp : p = v.PkgID
    · subst hp
      by_cases hs : s = v.Severity
      · subst hs
        simp [bumpCount]
        omega
      · have hs2 : ¬ (v.Severity = s) := fun e => hs e.symm
        simp [bumpCount, hs, hs2]
    · have hp2 : ¬ (v.PkgID = p) := fun e => hp e.symm
      simp [hp, hp2]

theorem pkgSeverityCount_eq_countP (vulns : List DetectedVulnerability)
    (p s : String) :
    pkgSeverityCount vulns p s
      = vulns.countP (fun v => v.PkgID == p && v.Severity == s) := by
  simpa [pkgSeverityCount] using pkgSeverityCount_foldl vulns (fun _ _ => 0) p s

theorem renderFold_eq (twSeverities : List Severity) (counts : String → String → Nat)
    (vulns : List DetectedVulnerability) (acc : List String × List String) :
    vulns.foldl
      (fun (acc : List String × List String) vuln =>
        if acc.1.contains vuln.PkgID then acc
        else
          (acc.1 ++ [vuln.PkgID],
           acc.2 ++ [vuln.PkgID ++ ", (" ++ String.intercalate ", "
             ((summary twSeverities (counts vuln.PkgID)).2) ++ ")"])) acc
      = (acc.1 ++ dedupFrom acc.1 (vulns.map (fun v => v.PkgID)),
         acc.2 ++ (dedupFrom acc.1 (vulns.map (fun v => v.PkgID))).map
           (fun pid => pid ++ ", (" ++ String.intercalate ", "
             ((summary twSeverities (counts pid)).2) ++ ")")) := by
  induction vulns generalizing acc with
  | nil => simp [dedupFrom]
  | cons v rest ih =>
    simp only [List.foldl_cons, List.map_cons]
    by_cases h : v.PkgID ∈ acc.1
    · have hb : acc.1.contains v.PkgID = true := by simpa using h
      rw [hb, if_pos rfl, ih]
      simp [dedupFrom, h]
    · have hb : acc.1.contains v.PkgID = false := by simpa using h
      rw [hb, if_neg (by simp), ih]
      simp [dedupFrom, h, List.append_assoc]

theorem addParents_cycleMap_all_none (n : Nat) :
    addParents n "A" [("B", ["A"]), ("C", ["B"]), ("A", ["C"])] = none
      ∧ addParents n "B" [("B", ["A"]), ("C", ["B"]), ("A", ["C"])] = none
      ∧ addParents n "C" [("B", ["A"]), ("C", ["B"]), ("A", ["C"])] = none := by
  induction n with
  | zero => refine ⟨?_, ?_, ?_⟩ <;> simp [addParents]
  | succ n ih =>
    refine ⟨?_, ?_, ?_⟩
    · simp [addParents, addParentsAll, lookupKey, ih.2.2]
    · simp [addParents, addParentsAll, lookupKey, ih.1]
    · simp [addParents, addParentsAll, lookupKey, ih.2.1]

/-- C1 (refuted): on the reverse dependency graph built from the cyclic
packages A→B→C→A, the provenance walk `addParents` is still descending
when any finite call depth is exhausted — the Go recursion keeps no
visited set, so on this input it never terminates and revisits the
starting package on its own path, contrary to the claimed cycle safety. -/
theorem addParents_cycle_never_terminates :
    ∀ fuel : Nat, addParents fuel "A" (reverseDeps cyclePackages) = none := by
  intro fuel
  have hmap : reverseDeps cyclePackages
      = [("B", ["A"]), ("C", ["B"]), ("A", ["C"])] := by decide
  rw [hmap]
  exact (addParents_cycleMap_all_none fuel).1

/-- C7: whenever the dependency origin tree is rendered (the parent map is
non-empty), each distinct vulnerable package identifier yields exactly one
top-level entry — the emitted identifiers are the duplicate-free
first-occurrence list of all vulnerability package identifiers — and the
severity tally in each entry's label is computed from all vulnerabilities
of that package identifier, not only the first one encountered. -/
theorem renderDependencyTree_dedups_and_aggregates (twSeverities : List Severity)
    (result : Result) (h : (reverseDeps result.Packages).length ≠ 0) :
    renderDependencyTree twSeverities result
        = (uniq (result.Vulnerabilities.map (fun v => v.PkgID))).map
            (fun pid => pid ++ ", (" ++ String.intercalate ", "
              ((summary twSeverities
                (fun s => result.Vulnerabilities.countP
                  (fun v => v.PkgID == pid && v.Severity == s))).2) ++ ")")
      ∧ (uniq (result.Vulnerabilities.map (fun v => v.PkgID))).Nodup := by
  constructor
  · simp only [renderDependencyTree]
    rw [if_neg h]
    rw [renderFold_eq twSeverities (pkgSeverityCount result.Vulnerabilities)
      result.Vulnerabilities ([], [])]
    have hfun : (fun pid => pid ++ ", (" ++ String.intercalate ", "
          ((summary twSeverities (pkgSeverityCount result.Vulnerabilities pid)).2) ++ ")")
        = (fun pid => pid ++ ", (" ++ String.intercalate ", "
            ((summary twSeverities
              (fun s => result.Vulnerabilities.countP
                (fun v => v.PkgID == pid && v.Severity == s))).2) ++ ")") := by
      funext pid
      have hc : pkgSeverityCount result.Vulnerabilities pid
          = fun s => result.Vulnerabilities.countP
              (fun v => v.PkgID == pid && v.Severity == s) :=
        funext fun s => pkgSeverityCount_eq_countP result.Vulnerabilities pid s
      rw [hc]
    rw [uniq_eq_dedupFrom]
    simp only [List.nil_append]
    rw [hfun]
  · rw [uniq_eq_dedupFrom]
    exact nodup_dedupFrom [] _

/-- C7 witness: for a result whose package `p` (reported at severities HIGH
and LOW) is pulled in by `top`, the parent map is non-empty and the tree
renders one entry for `p` whose tally aggregates both findings. -/
theorem renderDependencyTree_dedups_and_aggregates_witness :
    (reverseDeps sampleTreeResult.Packages).length ≠ 0
      ∧ (renderDependencyTree [Severity.LOW, Severity.HIGH] sampleTreeResult
          = (uniq (sampleTreeResult.Vulnerabilities.map (fun v => v.PkgID))).map
              (fun pid => pid ++ ", (" ++ String.intercalate ", "
                ((summary [Severity.LOW, Severity.HIGH]
                  (fun s => sampleTreeResult.Vulnerabilities.countP
                    (fun v => v.PkgID == pid && v.Severity == s))).2) ++ ")")
        ∧ (uniq (sampleTreeResult.Vulnerabilities.map (fun v => v.PkgID))).Nodup) :=
  ⟨by decide,
   renderDependencyTree_dedups_and_aggregates [Severity.LOW, Severity.HIGH]
     sampleTreeResult (by decide)⟩

end Trivy
